import Mathlib

/-!
Verification of the path coverage tracker (`uniqueRefreshPaths`) from
`modules/renter/refreshpaths.go`.

The tracker keeps two sets of directory paths: `childDirs`, the minimal
refresh points, and `parentDirs`, the directories already covered as
ancestors.  `callAdd` inserts a path and walks its ancestor chain up to
the root, moving superseded ancestors out of `childDirs` and recording
every ancestor in `parentDirs`.  `callRefreshAll` dispatches one
asynchronous bubble call per tracked child; `callRefreshAllBlocking`
runs the blocking bubble call on every tracked child, composing errors.

The `TurtleDexPath` type lives in the `modules` package, outside the
analysed sources; it is modelled from the spec as a list of path
segments, the root being the empty list, with `dir` (the source's
`Path.Dir`) dropping the last segment and failing on corrupt segments.
-/

set_option autoImplicit false

/-- Modelled from the spec: a directory path is an immutable hierarchical
identifier; we represent it as its list of path segments, the root being
the empty list. -/
abbrev TurtleDexPath := List String

/-- Modelled from the spec: `IsRoot` — the root path has no segments. -/
def isRoot (p : TurtleDexPath) : Bool := p.isEmpty

/-- Modelled from the spec: a corrupt path segment is one that the path
validation of the `modules` package rejects (empty or a dot-name). -/
def validSegment (s : String) : Bool := !(s = "" || s = "." || s = "..")

/-- A path all of whose segments are well formed. -/
def validPath (p : TurtleDexPath) : Bool := p.all validSegment

/-- Rendering of a path for error messages (the `%v` formatting of the
source). -/
def pathString (p : TurtleDexPath) : String := "/" ++ String.intercalate "/" p

/-- Modelled from the spec: `Path.Dir` returns the parent directory
(dropping the last segment) and fails on the root, or when the path is
corrupt (its last segment fails validation). -/
def dir (p : TurtleDexPath) : Except String TurtleDexPath :=
  match p.getLast? with
  | none => Except.error "cannot take the parent of the root path"
  | some seg =>
      if validSegment seg then Except.ok p.dropLast
      else Except.error ("invalid path segment " ++ seg)

/-- Modelled from the spec: the error wrapper produced by
`errors.AddContext(err, context)` — the original error with one context
string prepended. -/
structure ContextErr where
  context : String
  underlying : String
deriving DecidableEq, Repr

/-- The `uniqueRefreshPaths` struct: the set of minimal child refresh
points and the set of covered parent directories.  (The Go struct also
holds a renter back-reference and a mutex; the renter is injected as a
parameter of the refresh operations, and the mutex makes every call
atomic, so the sequential model is faithful.) -/
structure uniqueRefreshPaths where
  childDirs : Finset TurtleDexPath
  parentDirs : Finset TurtleDexPath
deriving DecidableEq

/-- `newUniqueRefreshPaths` returns an initialized struct with two empty
maps. -/
def newUniqueRefreshPaths : uniqueRefreshPaths := ⟨∅, ∅⟩

/-- `dir` succeeds only with the parent (`dropLast`) of a nonempty path. -/
theorem dir_ok (p q : TurtleDexPath) (h : dir p = Except.ok q) :
    q = p.dropLast ∧ p ≠ [] := by
  unfold dir at h
  cases hl : p.getLast? with
  | none => rw [hl] at h; exact absurd h (by simp)
  | some seg =>
      rw [hl] at h
      constructor
      · by_cases hv : validSegment seg <;> simp [hv] at h
        exact h.symm
      · intro hnil; subst hnil; simp at hl

/-- The ancestor walk of `callAdd` (the loop of lines 55–71 of
`refreshpaths.go`): while the path is not the root, compute the parent,
remove it from `childDirs` if present, insert it into `parentDirs`, and
continue from the parent.  On a `Dir` failure the error is returned with
context and the state accumulated so far is kept. -/
def addLoop (urp : uniqueRefreshPaths) (path : TurtleDexPath) :
    Except ContextErr Unit × uniqueRefreshPaths :=
  if isRoot path then (Except.ok (), urp)
  else
    match hdir : dir path with
    | Except.error e =>
        (Except.error ⟨"unable to get parent directory of " ++ pathString path, e⟩, urp)
    | Except.ok parentDir =>
        addLoop
          ⟨(if parentDir ∈ urp.childDirs then urp.childDirs.erase parentDir
            else urp.childDirs),
           insert parentDir urp.parentDirs⟩
          parentDir
termination_by path.length
decreasing_by
  obtain ⟨rfl, hne⟩ := dir_ok _ _ hdir
  simp only [List.length_dropLast]
  exact Nat.sub_lt (List.length_pos.mpr hne) Nat.one_pos

/-- `callAdd` adds a path to `uniqueRefreshPaths`: short-circuit if the
path is already tracked as a parent or as a child, otherwise insert it
into `childDirs` and run the ancestor walk. -/
def callAdd (urp : uniqueRefreshPaths) (path : TurtleDexPath) :
    Except ContextErr Unit × uniqueRefreshPaths :=
  if path ∈ urp.parentDirs then (Except.ok (), urp)
  else if path ∈ urp.childDirs then (Except.ok (), urp)
  else addLoop { urp with childDirs := insert path urp.childDirs } path

/-- `callNumChildDirs` returns the number of child directories currently
being tracked. -/
def callNumChildDirs (urp : uniqueRefreshPaths) : Nat := urp.childDirs.card

/-- `callNumParentDirs` returns the number of parent directories
currently being tracked. -/
def callNumParentDirs (urp : uniqueRefreshPaths) : Nat := urp.parentDirs.card

/-- `callRefreshAll` dispatches the asynchronous bubble call
(`callThreadedBubbleMetadata`, external to the analysed sources) once per
element of `childDirs`.  The model returns the multiset of dispatched
paths together with the (unchanged) tracker state. -/
def callRefreshAll (urp : uniqueRefreshPaths) :
    Multiset TurtleDexPath × uniqueRefreshPaths :=
  (urp.childDirs.sum (fun sp => ({sp} : Multiset TurtleDexPath)), urp)

/-- Modelled from the spec: the composed error of `errors.Compose` holds
every non-nil error collected during iteration; `nil` is the empty
collection.  An individual refresh result contributes its error, if any. -/
def errContribution (e : Option String) : Multiset String :=
  match e with
  | none => 0
  | some msg => {msg}

/-- `callRefreshAllBlocking` runs the blocking bubble call
(`managedBubbleMetadata`, external to the analysed sources, injected here
as `bubble`) on every element of `childDirs`, composing every returned
error into one aggregate; the aggregate is empty exactly when no call
failed. -/
def callRefreshAllBlocking (bubble : TurtleDexPath → Option String)
    (urp : uniqueRefreshPaths) : Multiset String :=
  urp.childDirs.sum (fun sp => errContribution (bubble sp))

/-- Folding a whole batch of `callAdd` calls over an initial state. -/
def addAll (urp : uniqueRefreshPaths) (ps : List TurtleDexPath) :
    uniqueRefreshPaths :=
  ps.foldl (fun s p => (callAdd s p).2) urp

/-- The proper ancestors of a path: all of its proper prefixes, from the
root up to (and excluding) the path itself. -/
def strictAncestors (p : TurtleDexPath) : Finset TurtleDexPath :=
  ((List.range p.length).map (fun k => p.take k)).toFinset

theorem mem_strictAncestors (a p : TurtleDexPath) :
    a ∈ strictAncestors p ↔ a <+: p ∧ a ≠ p := by
  unfold strictAncestors
  simp only [List.mem_toFinset, List.mem_map, List.mem_range]
  constructor
  · rintro ⟨k, hk, rfl⟩
    refine ⟨List.take_prefix k p, ?_⟩
    intro h
    have := congrArg List.length h
    simp only [List.length_take] at this
    omega
  · rintro ⟨hpre, hne⟩
    refine ⟨a.length, ?_, ?_⟩
    · rcases Nat.lt_or_ge a.length p.length with h | h
      · exact h
      · exact absurd (hpre.eq_of_length (Nat.le_antisymm hpre.length_le h)) hne
    · exact (List.prefix_iff_eq_take.mp hpre).symm

theorem strictAncestors_nil : strictAncestors [] = ∅ := rfl

theorem strictAncestors_concat (q : TurtleDexPath) (a : String) :
    strictAncestors (q ++ [a]) = insert q (strictAncestors q) := by
  ext x
  simp only [mem_strictAncestors, Finset.mem_insert]
  constructor
  · rintro ⟨hpre, hne⟩
    rcases List.prefix_concat_iff.mp hpre with h | h
    · exact absurd h hne
    · by_cases hx : x = q
      · exact Or.inl hx
      · exact Or.inr ⟨h, hx⟩
  · rintro (rfl | ⟨hpre, hne⟩)
    · exact ⟨⟨[a], rfl⟩, by simp⟩
    · refine ⟨hpre.trans ⟨[a], rfl⟩, ?_⟩
      intro h
      subst h
      have := hpre.length_le
      simp at this

theorem dir_concat (q : TurtleDexPath) (a : String) :
    dir (q ++ [a]) =
      if validSegment a then Except.ok q
      else Except.error ("invalid path segment " ++ a) := by
  unfold dir
  rw [List.getLast?_concat, List.dropLast_concat]

theorem condErase (s : Finset TurtleDexPath) (q : TurtleDexPath) :
    (if q ∈ s then s.erase q else s) = s.erase q := by
  split
  · rfl
  · exact (Finset.erase_eq_self.mpr (by assumption)).symm

theorem addLoop_nil (urp : uniqueRefreshPaths) :
    addLoop urp [] = (Except.ok (), urp) := by
  unfold addLoop
  rfl

theorem addLoop_concat (urp : uniqueRefreshPaths) (q : TurtleDexPath) (a : String) :
    addLoop urp (q ++ [a]) =
      if validSegment a then
        addLoop ⟨urp.childDirs.erase q, insert q urp.parentDirs⟩ q
      else
        (Except.error ⟨"unable to get parent directory of " ++ pathString (q ++ [a]),
          "invalid path segment " ++ a⟩, urp) := by
  rw [addLoop]
  have hroot : isRoot (q ++ [a]) = false := by simp [isRoot]
  rw [hroot]
  simp only [Bool.false_eq_true, if_false]
  by_cases hv : validSegment a
  · rw [if_pos hv]
    split
    · rename_i e heq
      rw [dir_concat, if_pos hv] at heq
      exact absurd heq (by simp)
    · rename_i parentDir heq
      rw [dir_concat, if_pos hv] at heq
      cases heq
      rw [condErase]
  · rw [if_neg hv]
    split
    · rename_i e heq
      rw [dir_concat, if_neg hv] at heq
      cases heq
      rfl
    · rename_i parentDir heq
      rw [dir_concat, if_neg hv] at heq
      exact absurd heq (by simp)

theorem erase_sdiff_eq (s t : Finset TurtleDexPath) (q : TurtleDexPath) :
    s.erase q \ t = s \ insert q t := by
  ext x
  simp only [Finset.mem_sdiff, Finset.mem_erase, Finset.mem_insert]
  tauto

theorem insert_union_eq (s t : Finset TurtleDexPath) (q : TurtleDexPath) :
    insert q s ∪ t = s ∪ insert q t := by
  ext x
  simp only [Finset.mem_union, Finset.mem_insert]
  tauto

/-- A completed walk records exactly the proper ancestors of the path:
they are removed from `childDirs` and inserted into `parentDirs`. -/
theorem addLoop_valid (p : TurtleDexPath) (hp : validPath p = true)
    (urp : uniqueRefreshPaths) :
    addLoop urp p =
      (Except.ok (), ⟨urp.childDirs \ strictAncestors p,
        urp.parentDirs ∪ strictAncestors p⟩) := by
  induction p using List.reverseRecOn generalizing urp with
  | nil =>
      rw [addLoop_nil, strictAncestors_nil]
      simp
  | append_singleton q a ih =>
      have hqa : validPath q = true ∧ validSegment a = true := by
        unfold validPath at hp ⊢
        rw [List.all_append] at hp
        simp only [Bool.and_eq_true, List.all_cons, Bool.and_true, List.all_nil] at hp
        exact hp
      rw [addLoop_concat, if_pos hqa.2, ih hqa.1, strictAncestors_concat]
      refine congrArg _ ?_
      refine congrArg₂ _ ?_ ?_
      · exact erase_sdiff_eq _ _ _
      · exact insert_union_eq _ _ _

/-- The walk never touches a path that is not a proper ancestor of its
argument: membership in both maps is preserved at such a path. -/
theorem addLoop_untouched (p x : TurtleDexPath) (hx : x ∉ strictAncestors p)
    (urp : uniqueRefreshPaths) :
    (x ∈ (addLoop urp p).2.childDirs ↔ x ∈ urp.childDirs)
      ∧ (x ∈ (addLoop urp p).2.parentDirs ↔ x ∈ urp.parentDirs) := by
  induction p using List.reverseRecOn generalizing urp with
  | nil =>
      rw [addLoop_nil]
      exact ⟨Iff.rfl, Iff.rfl⟩
  | append_singleton q a ih =>
      have hxq : x ≠ q ∧ x ∉ strictAncestors q := by
        rw [strictAncestors_concat] at hx
        simp only [Finset.mem_insert, not_or] at hx
        exact hx
      rw [addLoop_concat]
      by_cases hv : validSegment a
      · rw [if_pos hv]
        have h := ih hxq.2 ⟨urp.childDirs.erase q, insert q urp.parentDirs⟩
        constructor
        · rw [h.1]
          simp [Finset.mem_erase, hxq.1]
        · rw [h.2]
          simp [Finset.mem_insert, hxq.1]
      · rw [if_neg hv]
        exact ⟨Iff.rfl, Iff.rfl⟩

/-- The walk returns success exactly when the path is well formed. -/
theorem addLoop_ok_iff (p : TurtleDexPath) (urp : uniqueRefreshPaths) :
    (addLoop urp p).1 = Except.ok () ↔ validPath p = true := by
  induction p using List.reverseRecOn generalizing urp with
  | nil =>
      rw [addLoop_nil]
      simp [validPath]
  | append_singleton q a ih =>
      rw [addLoop_concat]
      by_cases hv : validSegment a
      · rw [if_pos hv]
        rw [ih]
        unfold validPath
        rw [List.all_append]
        simp [hv]
      · rw [if_neg hv]
        unfold validPath
        rw [List.all_append]
        simp [hv]

/-- The walk only ever inserts into `parentDirs`. -/
theorem addLoop_parent_mono (p : TurtleDexPath) (urp : uniqueRefreshPaths) :
    urp.parentDirs ⊆ (addLoop urp p).2.parentDirs := by
  induction p using List.reverseRecOn generalizing urp with
  | nil =>
      rw [addLoop_nil]
  | append_singleton q a ih =>
      rw [addLoop_concat]
      by_cases hv : validSegment a
      · rw [if_pos hv]
        refine Finset.Subset.trans ?_ (ih ⟨urp.childDirs.erase q, insert q urp.parentDirs⟩)
        exact Finset.subset_insert q urp.parentDirs
      · rw [if_neg hv]

/-- Invariant I1 of the spec: the two maps share no path. -/
def Disj (urp : uniqueRefreshPaths) : Prop :=
  ∀ x, x ∈ urp.childDirs → x ∉ urp.parentDirs

/-- Each step of the walk deletes from `childDirs` whatever it inserts
into `parentDirs`, so disjointness survives the walk — also when the walk
stops early on an error. -/
theorem addLoop_disj (p : TurtleDexPath) (urp : uniqueRefreshPaths)
    (h : Disj urp) : Disj (addLoop urp p).2 := by
  induction p using List.reverseRecOn generalizing urp with
  | nil =>
      rw [addLoop_nil]
      exact h
  | append_singleton q a ih =>
      rw [addLoop_concat]
      by_cases hv : validSegment a
      · rw [if_pos hv]
        refine ih _ ?_
        intro x hx hpar
        rw [Finset.mem_erase] at hx
        rw [Finset.mem_insert] at hpar
        rcases hpar with rfl | hpar
        · exact hx.1 rfl
        · exact h x hx.2 hpar
      · rw [if_neg hv]
        exact h

/-- A path extending `u ++ [b]` on the right is not a proper ancestor of
`u ++ [b]`. -/
theorem not_mem_strictAncestors_of_long (u w : TurtleDexPath) (b : String) :
    u ++ b :: w ∉ strictAncestors (u ++ [b]) := by
  rw [mem_strictAncestors]
  rintro ⟨hpre, hne⟩
  have hlen := hpre.length_le
  simp only [List.length_append, List.length_cons] at hlen
  have hw : w = [] := by
    refine List.eq_nil_of_length_eq_zero ?_
    simp only [List.length_nil] at hlen
    omega
  subst hw
  exact hne rfl

/-- A walk that fails on the corrupt segment `b` reports the failing
ancestor `u ++ [b]`, wraps the original `dir` error in a context naming
that path, and keeps exactly the ancestors processed before the failure
(those strictly between `u ++ [b]` and the added path). -/
theorem addLoop_error (u v : TurtleDexPath) (b : String)
    (hb : validSegment b = false) (hv : v.all validSegment = true)
    (urp : uniqueRefreshPaths) :
    addLoop urp (u ++ b :: v) =
      (Except.error ⟨"unable to get parent directory of " ++ pathString (u ++ [b]),
        "invalid path segment " ++ b⟩,
       ⟨urp.childDirs \ (strictAncestors (u ++ b :: v) \ strictAncestors (u ++ [b])),
        urp.parentDirs ∪ (strictAncestors (u ++ b :: v) \ strictAncestors (u ++ [b]))⟩) := by
  induction v using List.reverseRecOn generalizing urp with
  | nil =>
      rw [addLoop_concat, if_neg (by simp [hb]), Finset.sdiff_self]
      simp
  | append_singleton w c ih =>
      have hwc : w.all validSegment = true ∧ validSegment c = true := by
        rw [List.all_append] at hv
        simp only [Bool.and_eq_true, List.all_cons, Bool.and_true, List.all_nil] at hv
        exact hv
      have hsplit : u ++ b :: (w ++ [c]) = (u ++ b :: w) ++ [c] := by
        simp
      rw [hsplit, addLoop_concat, if_pos hwc.2, ih hwc.1, ← hsplit]
      have hC : strictAncestors (u ++ b :: (w ++ [c])) \ strictAncestors (u ++ [b])
          = insert (u ++ b :: w)
              (strictAncestors (u ++ b :: w) \ strictAncestors (u ++ [b])) := by
        rw [hsplit, strictAncestors_concat,
          Finset.insert_sdiff_of_not_mem _ (not_mem_strictAncestors_of_long u w b)]
      rw [hC]
      refine congrArg _ ?_
      refine congrArg₂ _ ?_ ?_
      · exact erase_sdiff_eq _ _ _
      · exact insert_union_eq _ _ _

/-- Invariant I2 of the spec: every proper ancestor of a tracked child is
recorded in `parentDirs`. -/
def ChildCovered (urp : uniqueRefreshPaths) : Prop :=
  ∀ c ∈ urp.childDirs, ∀ a : TurtleDexPath, a <+: c → a ≠ c → a ∈ urp.parentDirs

/-- `parentDirs` is closed under taking proper ancestors. -/
def ParentClosed (urp : uniqueRefreshPaths) : Prop :=
  ∀ q ∈ urp.parentDirs, ∀ a : TurtleDexPath, a <+: q → a ≠ q → a ∈ urp.parentDirs

/-- The tracker invariant maintained by `callAdd` on well formed paths. -/
def TrackerInv (urp : uniqueRefreshPaths) : Prop :=
  Disj urp ∧ ChildCovered urp ∧ ParentClosed urp

theorem inv_new : TrackerInv newUniqueRefreshPaths := by
  refine ⟨?_, ?_, ?_⟩ <;> intro x hx <;> simp [newUniqueRefreshPaths] at hx

/-- A `callAdd` on a path already tracked as a parent is a successful
no-op. -/
theorem callAdd_mem_parent (urp : uniqueRefreshPaths) (p : TurtleDexPath)
    (h : p ∈ urp.parentDirs) : callAdd urp p = (Except.ok (), urp) := by
  unfold callAdd
  rw [if_pos h]

/-- A `callAdd` on a path already tracked as a child is a successful
no-op. -/
theorem callAdd_mem_child (urp : uniqueRefreshPaths) (p : TurtleDexPath)
    (h1 : p ∉ urp.parentDirs) (h2 : p ∈ urp.childDirs) :
    callAdd urp p = (Except.ok (), urp) := by
  unfold callAdd
  rw [if_neg h1, if_pos h2]

/-- A `callAdd` on a fresh well formed path inserts it into `childDirs`,
removes its proper ancestors from `childDirs`, and records them all in
`parentDirs`. -/
theorem callAdd_fresh (urp : uniqueRefreshPaths) (p : TurtleDexPath)
    (h1 : p ∉ urp.parentDirs) (h2 : p ∉ urp.childDirs)
    (hval : validPath p = true) :
    callAdd urp p =
      (Except.ok (), ⟨insert p urp.childDirs \ strictAncestors p,
        urp.parentDirs ∪ strictAncestors p⟩) := by
  unfold callAdd
  rw [if_neg h1, if_neg h2, addLoop_valid p hval]

/-- Disjointness of the two maps is preserved by every `callAdd`, also
on corrupt paths where the walk stops early on an error. -/
theorem callAdd_disj (urp : uniqueRefreshPaths) (p : TurtleDexPath)
    (h : Disj urp) : Disj (callAdd urp p).2 := by
  unfold callAdd
  by_cases h1 : p ∈ urp.parentDirs
  · rw [if_pos h1]
    exact h
  · rw [if_neg h1]
    by_cases h2 : p ∈ urp.childDirs
    · rw [if_pos h2]
      exact h
    · rw [if_neg h2]
      refine addLoop_disj _ _ ?_
      intro x hx
      rw [Finset.mem_insert] at hx
      rcases hx with rfl | hx
      · exact h1
      · exact h x hx

/-- `callAdd` never removes anything from `parentDirs`. -/
theorem callAdd_parent_mono (urp : uniqueRefreshPaths) (p : TurtleDexPath) :
    urp.parentDirs ⊆ (callAdd urp p).2.parentDirs := by
  unfold callAdd
  by_cases h1 : p ∈ urp.parentDirs
  · rw [if_pos h1]
  · rw [if_neg h1]
    by_cases h2 : p ∈ urp.childDirs
    · rw [if_pos h2]
    · rw [if_neg h2]
      exact addLoop_parent_mono p { urp with childDirs := insert p urp.childDirs }

/-- The full invariant is preserved by `callAdd` on well formed paths. -/
theorem callAdd_inv (urp : uniqueRefreshPaths) (p : TurtleDexPath)
    (hval : validPath p = true) (h : TrackerInv urp) : TrackerInv (callAdd urp p).2 := by
  obtain ⟨hdisj, hcov, hclo⟩ := h
  by_cases h1 : p ∈ urp.parentDirs
  · rw [callAdd_mem_parent urp p h1]
    exact ⟨hdisj, hcov, hclo⟩
  · by_cases h2 : p ∈ urp.childDirs
    · rw [callAdd_mem_child urp p h1 h2]
      exact ⟨hdisj, hcov, hclo⟩
    · rw [callAdd_fresh urp p h1 h2 hval]
      refine ⟨?_, ?_, ?_⟩
      · intro x hx hpar
        simp only [Finset.mem_sdiff, Finset.mem_insert] at hx
        rw [Finset.mem_union] at hpar
        rcases hpar with hpar | hpar
        · rcases hx.1 with rfl | hxc
          · exact h1 hpar
          · exact hdisj x hxc hpar
        · exact hx.2 hpar
      · intro c hc a hpre hne
        simp only [Finset.mem_sdiff, Finset.mem_insert] at hc
        rw [Finset.mem_union]
        rcases hc.1 with rfl | hcc
        · exact Or.inr ((mem_strictAncestors a c).mpr ⟨hpre, hne⟩)
        · exact Or.inl (hcov c hcc a hpre hne)
      · intro q hq a hpre hne
        rw [Finset.mem_union] at hq ⊢
        rcases hq with hq | hq
        · exact Or.inl (hclo q hq a hpre hne)
        · rw [mem_strictAncestors] at hq
          refine Or.inr ((mem_strictAncestors a p).mpr ⟨hpre.trans hq.1, ?_⟩)
          intro heq
          subst heq
          exact hq.2 (hq.1.eq_of_length
            (Nat.le_antisymm hq.1.length_le hpre.length_le))

theorem addAll_cons (urp : uniqueRefreshPaths) (p : TurtleDexPath)
    (ps : List TurtleDexPath) :
    addAll urp (p :: ps) = addAll (callAdd urp p).2 ps := rfl

theorem addAll_disj (ps : List TurtleDexPath) (urp : uniqueRefreshPaths)
    (h : Disj urp) : Disj (addAll urp ps) := by
  induction ps generalizing urp with
  | nil => exact h
  | cons p ps ih =>
      rw [addAll_cons]
      exact ih _ (callAdd_disj urp p h)

theorem addAll_inv (ps : List TurtleDexPath)
    (hps : ∀ p ∈ ps, validPath p = true) (urp : uniqueRefreshPaths)
    (h : TrackerInv urp) : TrackerInv (addAll urp ps) := by
  induction ps generalizing urp with
  | nil => exact h
  | cons p ps ih =>
      rw [addAll_cons]
      refine ih (fun q hq => hps q (List.mem_cons_of_mem p hq)) _ ?_
      exact callAdd_inv urp p (hps p (List.mem_cons_self p ps)) h

theorem addAll_parent_mono (ps : List TurtleDexPath)
    (urp : uniqueRefreshPaths) :
    urp.parentDirs ⊆ (addAll urp ps).parentDirs := by
  induction ps generalizing urp with
  | nil => exact Finset.Subset.refl _
  | cons p ps ih =>
      rw [addAll_cons]
      exact Finset.Subset.trans (callAdd_parent_mono urp p) (ih _)

/-- Evaluation of a small concrete batch, used by several witnesses. -/
theorem eval_state_ab :
    addAll newUniqueRefreshPaths [["a", "b"]]
      = ⟨insert ["a", "b"] newUniqueRefreshPaths.childDirs
           \ strictAncestors ["a", "b"],
         newUniqueRefreshPaths.parentDirs ∪ strictAncestors ["a", "b"]⟩ := by
  show (callAdd newUniqueRefreshPaths ["a", "b"]).2 = _
  rw [callAdd_fresh newUniqueRefreshPaths ["a", "b"] (by decide) (by decide)
    (by decide)]

/-- C1: after any sequence of `callAdd` calls on well formed paths
starting from a fresh tracker, no two distinct members of `childDirs`
stand in an ancestor/descendant relationship. -/
theorem claim_C1_minimality (ps : List TurtleDexPath)
    (hps : ∀ p ∈ ps, validPath p = true) :
    ∀ c ∈ (addAll newUniqueRefreshPaths ps).childDirs,
      ∀ c' ∈ (addAll newUniqueRefreshPaths ps).childDirs,
        c ≠ c' → ¬ (c <+: c') := by
  intro c hc c' hc' hne hpre
  obtain ⟨hdisj, hcov, _⟩ := addAll_inv ps hps _ inv_new
  exact hdisj c hc (hcov c' hc' c hpre hne)

theorem claim_C1_minimality_witness :
    (∀ p ∈ [["a", "b", "c"], ["a", "b", "d"]], validPath p = true)
      ∧ ∀ c ∈ (addAll newUniqueRefreshPaths
            [["a", "b", "c"], ["a", "b", "d"]]).childDirs,
          ∀ c' ∈ (addAll newUniqueRefreshPaths
              [["a", "b", "c"], ["a", "b", "d"]]).childDirs,
            c ≠ c' → ¬ (c <+: c') :=
  ⟨by decide, claim_C1_minimality [["a", "b", "c"], ["a", "b", "d"]] (by decide)⟩

/-- C2: when a `callAdd` on a tracker built by well formed adds returns
success, every proper ancestor of the added path — the root included —
is in `parentDirs` when the call completes. -/
theorem claim_C2_coverage (ps : List TurtleDexPath) (p : TurtleDexPath)
    (hps : ∀ q ∈ ps, validPath q = true)
    (hok : (callAdd (addAll newUniqueRefreshPaths ps) p).1 = Except.ok ()) :
    ∀ a : TurtleDexPath, a <+: p → a ≠ p →
      a ∈ (callAdd (addAll newUniqueRefreshPaths ps) p).2.parentDirs := by
  intro a hpre hne
  obtain ⟨hdisj, hcov, hclo⟩ := addAll_inv ps hps _ inv_new
  by_cases h1 : p ∈ (addAll newUniqueRefreshPaths ps).parentDirs
  · rw [callAdd_mem_parent _ p h1]
    exact hclo p h1 a hpre hne
  · by_cases h2 : p ∈ (addAll newUniqueRefreshPaths ps).childDirs
    · rw [callAdd_mem_child _ p h1 h2]
      exact hcov p h2 a hpre hne
    · have hval : validPath p = true := by
        unfold callAdd at hok
        rw [if_neg h1, if_neg h2] at hok
        exact (addLoop_ok_iff p _).mp hok
      rw [callAdd_fresh _ p h1 h2 hval]
      exact Finset.mem_union_right _ ((mem_strictAncestors a p).mpr ⟨hpre, hne⟩)

theorem claim_C2_coverage_witness :
    (∀ q ∈ [["a", "b"]], validPath q = true)
      ∧ (callAdd (addAll newUniqueRefreshPaths [["a", "b"]])
          ["a", "b", "c"]).1 = Except.ok ()
      ∧ ["a"] ∈ (callAdd (addAll newUniqueRefreshPaths [["a", "b"]])
          ["a", "b", "c"]).2.parentDirs := by
  have hok : (callAdd (addAll newUniqueRefreshPaths [["a", "b"]])
      ["a", "b", "c"]).1 = Except.ok () := by
    rw [eval_state_ab,
      callAdd_fresh _ ["a", "b", "c"] (by decide) (by decide) (by decide)]
  exact ⟨by decide, hok,
    claim_C2_coverage [["a", "b"]] ["a", "b", "c"] (by decide) hok
      ["a"] (by decide) (by decide)⟩

/-- C3: after any sequence of `callAdd` calls — including calls that
abort on a corrupt path partway through the walk — `childDirs` and
`parentDirs` are disjoint. -/
theorem claim_C3_disjoint (ps : List TurtleDexPath) :
    (addAll newUniqueRefreshPaths ps).childDirs
      ∩ (addAll newUniqueRefreshPaths ps).parentDirs = ∅ := by
  have h := addAll_disj ps newUniqueRefreshPaths inv_new.1
  rw [Finset.eq_empty_iff_forall_not_mem]
  intro x hx
  rw [Finset.mem_inter] at hx
  exact h x hx.1 hx.2

/-- C4: a successful `callAdd` of a proper descendant `D` of a tracked
child `A` moves `A` to `parentDirs` and tracks `D` in `childDirs`. -/
theorem claim_C4_superseding (ps : List TurtleDexPath) (A D : TurtleDexPath)
    (hps : ∀ q ∈ ps, validPath q = true)
    (hA : A ∈ (addAll newUniqueRefreshPaths ps).childDirs)
    (hpre : A <+: D) (hne : A ≠ D)
    (hok : (callAdd (addAll newUniqueRefreshPaths ps) D).1 = Except.ok ()) :
    A ∉ (callAdd (addAll newUniqueRefreshPaths ps) D).2.childDirs
      ∧ A ∈ (callAdd (addAll newUniqueRefreshPaths ps) D).2.parentDirs
      ∧ D ∈ (callAdd (addAll newUniqueRefreshPaths ps) D).2.childDirs := by
  obtain ⟨hdisj, hcov, hclo⟩ := addAll_inv ps hps _ inv_new
  have h1 : D ∉ (addAll newUniqueRefreshPaths ps).parentDirs :=
    fun hD => hdisj A hA (hclo D hD A hpre hne)
  have h2 : D ∉ (addAll newUniqueRefreshPaths ps).childDirs :=
    fun hD => hdisj A hA (hcov D hD A hpre hne)
  have hval : validPath D = true := by
    unfold callAdd at hok
    rw [if_neg h1, if_neg h2] at hok
    exact (addLoop_ok_iff D _).mp hok
  rw [callAdd_fresh _ D h1 h2 hval]
  have hAanc : A ∈ strictAncestors D := (mem_strictAncestors A D).mpr ⟨hpre, hne⟩
  refine ⟨?_, Finset.mem_union_right _ hAanc, ?_⟩
  · rw [Finset.mem_sdiff]
    rintro ⟨-, hA2⟩
    exact hA2 hAanc
  · rw [Finset.mem_sdiff]
    refine ⟨Finset.mem_insert_self D _, ?_⟩
    rw [mem_strictAncestors]
    rintro ⟨-, hne2⟩
    exact hne2 rfl

theorem claim_C4_superseding_witness :
    (∀ q ∈ [["a", "b"]], validPath q = true)
      ∧ ["a", "b"] ∈ (addAll newUniqueRefreshPaths [["a", "b"]]).childDirs
      ∧ (callAdd (addAll newUniqueRefreshPaths [["a", "b"]])
          ["a", "b", "c"]).1 = Except.ok ()
      ∧ ["a", "b"] ∉ (callAdd (addAll newUniqueRefreshPaths [["a", "b"]])
          ["a", "b", "c"]).2.childDirs
      ∧ ["a", "b"] ∈ (callAdd (addAll newUniqueRefreshPaths [["a", "b"]])
          ["a", "b", "c"]).2.parentDirs
      ∧ ["a", "b", "c"] ∈ (callAdd (addAll newUniqueRefreshPaths [["a", "b"]])
          ["a", "b", "c"]).2.childDirs := by
  have hA : ["a", "b"] ∈ (addAll newUniqueRefreshPaths [["a", "b"]]).childDirs := by
    rw [eval_state_ab]
    decide
  have hok : (callAdd (addAll newUniqueRefreshPaths [["a", "b"]])
      ["a", "b", "c"]).1 = Except.ok () := by
    rw [eval_state_ab,
      callAdd_fresh _ ["a", "b", "c"] (by decide) (by decide) (by decide)]
  have h := claim_C4_superseding [["a", "b"]] ["a", "b"] ["a", "b", "c"]
    (by decide) hA (by decide) (by decide) hok
  exact ⟨by decide, hA, hok, h.1, h.2.1, h.2.2⟩

/-- C5: a second `callAdd` of the same path directly after a first one
returns success and leaves both maps exactly as the first call left
them, whatever the starting state. -/
theorem claim_C5_idempotent (urp : uniqueRefreshPaths) (p : TurtleDexPath) :
    callAdd (callAdd urp p).2 p = (Except.ok (), (callAdd urp p).2) := by
  by_cases h1 : p ∈ urp.parentDirs
  · rw [callAdd_mem_parent urp p h1, callAdd_mem_parent urp p h1]
  · by_cases h2 : p ∈ urp.childDirs
    · rw [callAdd_mem_child urp p h1 h2, callAdd_mem_child urp p h1 h2]
    · have hca : callAdd urp p
          = addLoop { urp with childDirs := insert p urp.childDirs } p := by
        unfold callAdd
        rw [if_neg h1, if_neg h2]
      have hself : p ∉ strictAncestors p := by
        rw [mem_strictAncestors]
        rintro ⟨-, hne⟩
        exact hne rfl
      have hm := addLoop_untouched p p hself
        { urp with childDirs := insert p urp.childDirs }
      have hpc : p ∈ (callAdd urp p).2.childDirs := by
        rw [hca, hm.1]
        exact Finset.mem_insert_self p urp.childDirs
      have hpp : p ∉ (callAdd urp p).2.parentDirs := by
        rw [hca, hm.2]
        exact h1
      exact callAdd_mem_child _ p hpp hpc

/-- C6: a `callAdd` whose ancestor walk hits a corrupt segment returns
the `dir` error wrapped only in a context naming the path whose parent
could not be computed, and keeps exactly the state changes committed
before the failure (the added path and the ancestors already walked). -/
theorem claim_C6_error_propagation (urp : uniqueRefreshPaths)
    (u v : TurtleDexPath) (b : String)
    (hb : validSegment b = false) (hv : v.all validSegment = true)
    (h1 : u ++ b :: v ∉ urp.parentDirs) (h2 : u ++ b :: v ∉ urp.childDirs) :
    callAdd urp (u ++ b :: v) =
      (Except.error ⟨"unable to get parent directory of " ++ pathString (u ++ [b]),
        "invalid path segment " ++ b⟩,
       ⟨insert (u ++ b :: v) urp.childDirs
          \ (strictAncestors (u ++ b :: v) \ strictAncestors (u ++ [b])),
        urp.parentDirs ∪ (strictAncestors (u ++ b :: v) \ strictAncestors (u ++ [b]))⟩) := by
  unfold callAdd
  rw [if_neg h1, if_neg h2, addLoop_error u v b hb hv]

theorem claim_C6_error_propagation_witness :
    (validSegment ".." = false)
      ∧ (["c"] : List String).all validSegment = true
      ∧ (["a"] ++ ".." :: ["c"] ∉ newUniqueRefreshPaths.parentDirs)
      ∧ (["a"] ++ ".." :: ["c"] ∉ newUniqueRefreshPaths.childDirs)
      ∧ callAdd newUniqueRefreshPaths (["a"] ++ ".." :: ["c"]) =
        (Except.error ⟨"unable to get parent directory of "
            ++ pathString (["a"] ++ [".."]),
          "invalid path segment " ++ ".."⟩,
         ⟨insert (["a"] ++ ".." :: ["c"]) newUniqueRefreshPaths.childDirs
            \ (strictAncestors (["a"] ++ ".." :: ["c"])
              \ strictAncestors (["a"] ++ [".."])),
          newUniqueRefreshPaths.parentDirs
            ∪ (strictAncestors (["a"] ++ ".." :: ["c"])
              \ strictAncestors (["a"] ++ [".."]))⟩) :=
  ⟨by decide, by decide, by decide, by decide,
    claim_C6_error_propagation newUniqueRefreshPaths ["a"] ["c"] ".."
      (by decide) (by decide) (by decide) (by decide)⟩

/-- C7: the blocking refresh is attempted on every tracked child — every
individual error lands in the composed aggregate — and the aggregate is
empty exactly when every refresh succeeded. -/
theorem claim_C7_error_aggregation (bubble : TurtleDexPath → Option String)
    (urp : uniqueRefreshPaths) :
    (callRefreshAllBlocking bubble urp = 0
        ↔ ∀ sp ∈ urp.childDirs, bubble sp = none)
      ∧ (∀ sp ∈ urp.childDirs, ∀ e : String, bubble sp = some e →
          e ∈ callRefreshAllBlocking bubble urp) := by
  constructor
  · unfold callRefreshAllBlocking
    rw [Finset.sum_eq_zero_iff]
    constructor
    · intro h sp hsp
      have h2 := h sp hsp
      cases hb : bubble sp with
      | none => rfl
      | some msg =>
          rw [hb] at h2
          exact absurd h2 (by simp [errContribution])
    · intro h sp hsp
      rw [h sp hsp]
      rfl
  · intro sp hsp e he
    unfold callRefreshAllBlocking
    rw [Finset.mem_sum]
    refine ⟨sp, hsp, ?_⟩
    rw [he]
    simp [errContribution]

theorem claim_C7_error_aggregation_witness :
    ¬ (callRefreshAllBlocking
        (fun sp => if sp = ["A"] then some "errA"
          else if sp = ["C"] then some "errC" else none)
        ⟨{["A"], ["B"], ["C"]}, ∅⟩ = 0)
      ∧ "errA" ∈ callRefreshAllBlocking
          (fun sp => if sp = ["A"] then some "errA"
            else if sp = ["C"] then some "errC" else none)
          ⟨{["A"], ["B"], ["C"]}, ∅⟩
      ∧ "errC" ∈ callRefreshAllBlocking
          (fun sp => if sp = ["A"] then some "errA"
            else if sp = ["C"] then some "errC" else none)
          ⟨{["A"], ["B"], ["C"]}, ∅⟩ := by
  have h := claim_C7_error_aggregation
    (fun sp => if sp = ["A"] then some "errA"
      else if sp = ["C"] then some "errC" else none)
    ⟨{["A"], ["B"], ["C"]}, ∅⟩
  refine ⟨?_, ?_, ?_⟩
  · intro h0
    exact absurd (h.1.mp h0 ["A"] (by decide)) (by decide)
  · exact h.2 ["A"] (by decide) "errA" (by decide)
  · exact h.2 ["C"] (by decide) "errC" (by decide)

/-- C8: adding the root to a fresh tracker succeeds, puts exactly the
root into `childDirs`, and leaves `parentDirs` empty — the ancestor walk
never runs. -/
theorem claim_C8_root :
    (callAdd newUniqueRefreshPaths []).1 = Except.ok ()
      ∧ (callAdd newUniqueRefreshPaths []).2.childDirs = {[]}
      ∧ (callAdd newUniqueRefreshPaths []).2.parentDirs = ∅ := by
  have h : callAdd newUniqueRefreshPaths []
      = addLoop { newUniqueRefreshPaths with
          childDirs := insert [] newUniqueRefreshPaths.childDirs } [] := by
    unfold callAdd
    rw [if_neg (by decide), if_neg (by decide)]
  rw [h, addLoop_nil]
  exact ⟨rfl, by simp [newUniqueRefreshPaths], rfl⟩

/-- C9: `callRefreshAll` dispatches the asynchronous refresh exactly once
per tracked child — the dispatched multiset is the child set, its size is
`callNumChildDirs`, nothing is dispatched twice or skipped — and the
tracker state is untouched. -/
theorem claim_C9_dispatch_count (urp : uniqueRefreshPaths) :
    (callRefreshAll urp).1 = urp.childDirs.val
      ∧ (∀ sp ∈ urp.childDirs, Multiset.count sp (callRefreshAll urp).1 = 1)
      ∧ (∀ sp : TurtleDexPath, sp ∉ urp.childDirs →
          Multiset.count sp (callRefreshAll urp).1 = 0)
      ∧ Multiset.card (callRefreshAll urp).1 = callNumChildDirs urp
      ∧ (callRefreshAll urp).2 = urp := by
  have hval : (callRefreshAll urp).1 = urp.childDirs.val :=
    Finset.sum_multiset_singleton urp.childDirs
  refine ⟨hval, ?_, ?_, ?_, rfl⟩
  · intro sp hsp
    rw [hval]
    exact Multiset.count_eq_one_of_mem urp.childDirs.nodup hsp
  · intro sp hsp
    rw [hval]
    exact Multiset.count_eq_zero.mpr hsp
  · rw [hval]
    rfl

theorem claim_C9_dispatch_count_witness :
    (["a"] ∈ (⟨{["a"], ["b"]}, ∅⟩ : uniqueRefreshPaths).childDirs)
      ∧ Multiset.count ["a"]
          (callRefreshAll ⟨{["a"], ["b"]}, ∅⟩).1 = 1
      ∧ Multiset.card (callRefreshAll ⟨{["a"], ["b"]}, ∅⟩).1
          = callNumChildDirs ⟨{["a"], ["b"]}, ∅⟩
      ∧ (callRefreshAll ⟨{["a"], ["b"]}, ∅⟩).2 = (⟨{["a"], ["b"]}, ∅⟩ : uniqueRefreshPaths) :=
  ⟨by decide,
    (claim_C9_dispatch_count ⟨{["a"], ["b"]}, ∅⟩).2.1 ["a"] (by decide),
    (claim_C9_dispatch_count ⟨{["a"], ["b"]}, ∅⟩).2.2.2.1,
    (claim_C9_dispatch_count ⟨{["a"], ["b"]}, ∅⟩).2.2.2.2⟩

/-- C10: nothing ever leaves `parentDirs` — every `callAdd` only grows
it — a `callAdd` of a path already in `parentDirs` is a successful
no-op, and a path that has become a parent never re-enters `childDirs`
under any further adds. -/
theorem claim_C10_parent_monotone (ps more : List TurtleDexPath)
    (p : TurtleDexPath)
    (hp : p ∈ (addAll newUniqueRefreshPaths ps).parentDirs) :
    (∀ urp : uniqueRefreshPaths, ∀ q : TurtleDexPath,
        urp.parentDirs ⊆ (callAdd urp q).2.parentDirs)
      ∧ callAdd (addAll newUniqueRefreshPaths ps) p
          = (Except.ok (), addAll newUniqueRefreshPaths ps)
      ∧ p ∈ (addAll newUniqueRefreshPaths (ps ++ more)).parentDirs
      ∧ p ∉ (addAll newUniqueRefreshPaths (ps ++ more)).childDirs := by
  have hsplit : addAll newUniqueRefreshPaths (ps ++ more)
      = addAll (addAll newUniqueRefreshPaths ps) more := by
    unfold addAll
    rw [List.foldl_append]
  have hp2 : p ∈ (addAll newUniqueRefreshPaths (ps ++ more)).parentDirs := by
    rw [hsplit]
    exact addAll_parent_mono more (addAll newUniqueRefreshPaths ps) hp
  refine ⟨callAdd_parent_mono, callAdd_mem_parent _ p hp, hp2, ?_⟩
  intro hc
  exact addAll_disj (ps ++ more) newUniqueRefreshPaths inv_new.1 p hc hp2

theorem claim_C10_parent_monotone_witness :
    (["a"] ∈ (addAll newUniqueRefreshPaths [["a", "b"]]).parentDirs)
      ∧ callAdd (addAll newUniqueRefreshPaths [["a", "b"]]) ["a"]
          = (Except.ok (), addAll newUniqueRefreshPaths [["a", "b"]])
      ∧ ["a"] ∈ (addAll newUniqueRefreshPaths
          ([["a", "b"]] ++ [["x"]])).parentDirs
      ∧ ["a"] ∉ (addAll newUniqueRefreshPaths
          ([["a", "b"]] ++ [["x"]])).childDirs := by
  have hp : ["a"] ∈ (addAll newUniqueRefreshPaths [["a", "b"]]).parentDirs := by
    rw [eval_state_ab]
    decide
  have h := claim_C10_parent_monotone [["a", "b"]] [["x"]] ["a"] hp
  exact ⟨hp, h.2.1, h.2.2.1, h.2.2.2⟩

